import Mathlib

/-!
# Verification of the azure_metrics_exporter resolution-and-translation pipeline

Shallow embedding of the exporter's core (`main.go`, `azure.go`): metric-name
sanitization, resource name filtering, batch partitioning, subscription
path stripping, API version selection, token-response decoding, and metric
extraction.

Modelling conventions:
* Go strings are `List Char` (the functions below treat them byte-for-byte on
  ASCII data; `'x'` stands for the byte `x`).
* Go `float64` values are ℚ — the embedded code only passes them through,
  never computes with them, so any numeric carrier is faithful.
* Fallible operations return `Option`/`Except`; a Go runtime panic (failed
  type assertion, out-of-range index) is a distinguished outcome, never a
  value.
* Compiled regular expressions from the configuration are modelled, as the
  code consumes them, as match capabilities `List Char → Bool`.
-/

namespace AzureExporter

/-! ## Metric Translator: name sanitization (main.go, extractMetrics lines 67-72) -/

/-- Character class of the Go regexp `invalidMetricChars =
regexp.MustCompile("[^a-zA-Z0-9_:]")`: `true` exactly on the characters the
regexp does *not* match (those kept by `ReplaceAllString(_, "_")`). -/
def isValidMetricChar (c : Char) : Bool :=
  decide (('a' ≤ c ∧ c ≤ 'z') ∨ ('A' ≤ c ∧ c ≤ 'Z') ∨ ('0' ≤ c ∧ c ≤ '9') ∨ c = '_' ∨ c = ':')

/-- Embedding of the name derivation in `Collector.extractMetrics`:

    metricName := strings.Replace(value.Name.Value, " ", "_", -1)
    metricName = strings.ToLower(metricName + "_" + value.Unit)
    metricName = strings.Replace(metricName, "/", "_per_", -1)
    metricName = invalidMetricChars.ReplaceAllString(metricName, "_")

`strings.Replace` with single-character old/new strings is a per-character
map; `strings.Replace(_, "/", "_per_", -1)` expands each `/` into `_per_`.
`strings.ToLower` is modelled by `Char.toLower` (ASCII case folding); Go's
`ToLower` additionally folds non-ASCII letters, but every character on which
the two differ lies outside `[a-zA-Z0-9_:]` both before and after folding,
so the final replacement step erases the difference. -/
def sanitizeMetricName (nameValue unitValue : List Char) : List Char :=
  let underscored := nameValue.map (fun c => if c = ' ' then '_' else c)
  let lowered := (underscored ++ '_' :: unitValue).map Char.toLower
  let slashed := lowered.flatMap (fun c => if c = '/' then "_per_".toList else [c])
  slashed.map (fun c => if isValidMetricChar c then c else '_')

theorem char_le_iff_toNat (a b : Char) : a ≤ b ↔ a.toNat ≤ b.toNat := by
  simp [Char.le_def, Char.toNat, UInt32.le_def, BitVec.le_def, UInt32.toNat]

theorem toNat_ofNat_of_le (n : Nat) (h1 : 97 ≤ n) (h2 : n ≤ 122) :
    (Char.ofNat n).toNat = n := by
  have hv : n.isValidChar := Or.inl (by omega)
  simp [Char.ofNat, hv, Char.ofNatAux, Char.toNat, UInt32.toNat, BitVec.toNat_ofNatLt]

theorem toLower_not_upper (c : Char) :
    ¬ (65 ≤ (Char.toLower c).toNat ∧ (Char.toLower c).toNat ≤ 90) := by
  simp only [Char.toLower]
  by_cases h : 65 ≤ c.toNat ∧ c.toNat ≤ 90
  · rw [if_pos (by omega)]
    rw [toNat_ofNat_of_le (c.toNat + 32) (by omega) (by omega)]
    omega
  · rw [if_neg (by omega)]
    omega

theorem mem_sanitized_cases (nameValue unitValue : List Char) (c : Char)
    (hc : c ∈ sanitizeMetricName nameValue unitValue) :
    c = '_' ∨ (isValidMetricChar c = true ∧ ¬ (65 ≤ c.toNat ∧ c.toNat ≤ 90)) := by
  simp only [sanitizeMetricName, List.mem_map] at hc
  obtain ⟨a, ha, rfl⟩ := hc
  by_cases hv : isValidMetricChar a = true
  · rw [if_pos hv]
    refine Or.inr ⟨hv, ?_⟩
    -- `a` came from the `/`-expansion of a `Char.toLower` image, so it is
    -- either a character of "_per_" or a lowercased character.
    simp only [List.mem_flatMap, List.mem_map] at ha
    obtain ⟨b, ⟨b0, _, rfl⟩, hb⟩ := ha
    by_cases hs : Char.toLower b0 = '/'
    · rw [hs] at hb
      rw [if_pos rfl] at hb
      have he : "_per_".toList = ['_', 'p', 'e', 'r', '_'] := rfl
      rw [he] at hb
      simp only [List.mem_cons, List.not_mem_nil, or_false] at hb
      rcases hb with rfl | rfl | rfl | rfl | rfl <;> decide
    · rw [if_neg hs] at hb
      simp only [List.mem_singleton] at hb
      subst hb
      exact toLower_not_upper b0
  · rw [if_neg hv]
    exact Or.inl rfl

/-- Claim C6: the sanitized exposition name, produced by replacing spaces
with underscores, appending the unit, lowercasing, replacing `/` with
`_per_`, and substituting every character outside `[a-zA-Z0-9_:]` with `_`,
always matches `^[a-zA-Z0-9_:]+$` (it is nonempty and each character is in
the class), is lowercase (carries no `A`-`Z`), and contains no `/`. -/
theorem c6_sanitized_name_wellformed (nameValue unitValue : List Char) :
    sanitizeMetricName nameValue unitValue ≠ [] ∧
    ∀ c ∈ sanitizeMetricName nameValue unitValue,
      (('a' ≤ c ∧ c ≤ 'z') ∨ ('0' ≤ c ∧ c ≤ '9') ∨ c = '_' ∨ c = ':') ∧
      ¬ ('A' ≤ c ∧ c ≤ 'Z') ∧ c ≠ '/' := by
  constructor
  · -- the appended "_" separator survives every stage, so the result is nonempty
    intro hnil
    simp only [sanitizeMetricName, List.map_eq_nil_iff, List.flatMap_eq_nil_iff] at hnil
    have hmem : ('_' : Char) ∈
        (nameValue.map (fun c => if c = ' ' then '_' else c) ++ '_' :: unitValue).map
          Char.toLower := by
      simp only [List.mem_map]
      exact ⟨'_', by simp, by decide⟩
    have h := hnil _ hmem
    rw [if_neg (by decide)] at h
    exact absurd h (by decide)
  · intro c hc
    rcases mem_sanitized_cases nameValue unitValue c hc with rfl | ⟨hv, hup⟩
    · exact ⟨Or.inr (Or.inr (Or.inl rfl)), by decide, by decide⟩
    · simp only [isValidMetricChar, decide_eq_true_eq] at hv
      have hup' : ¬ ('A' ≤ c ∧ c ≤ 'Z') := by
        intro hAZ
        have h1 := (char_le_iff_toNat 'A' c).mp hAZ.1
        have h2 := (char_le_iff_toNat c 'Z').mp hAZ.2
        have e1 : 'A'.toNat = 65 := by decide
        have e2 : 'Z'.toNat = 90 := by decide
        exact hup ⟨by omega, by omega⟩
      rcases hv with h | h | h | h | h
      · exact ⟨Or.inl h, hup', by rintro rfl; revert h; decide⟩
      · exact absurd h hup'
      · exact ⟨Or.inr (Or.inl h), hup', by rintro rfl; revert h; decide⟩
      · exact ⟨Or.inr (Or.inr (Or.inl h)), hup', by subst h; decide⟩
      · exact ⟨Or.inr (Or.inr (Or.inr h)), hup', by subst h; decide⟩

/-! ## Resource Resolver: data model and name filtering (azure.go) -/

/-- `AzureResource` (azure.go lines 86-94). The Go field `Type` is rendered
`resourceType` because `Type` is reserved in Lean. -/
structure AzureResource where
  ID : List Char
  Name : List Char
  Location : List Char
  resourceType : List Char
  Tags : List (List Char × List Char)
  ManagedBy : List Char
  Subscription : List Char
deriving DecidableEq

/-- The two fields of `config.ResourceGroup` that `filterResources` reads:
the precompiled include/exclude name patterns, modelled as the match
capability (`regexp.MatchString`) each compiled pattern provides. -/
structure ResourceGroup where
  ResourceNameIncludeRe : List (List Char → Bool)
  ResourceNameExcludeRe : List (List Char → Bool)

/-- `AzureClient.filterResources` (azure.go lines 450-481): skip a resource
when include patterns exist and none matches; skip it when some exclude
pattern matches; keep it otherwise. -/
def filterResources : List AzureResource → ResourceGroup → List AzureResource
  | [], _ => []
  | resource :: rest, resourceGroup =>
    if resourceGroup.ResourceNameIncludeRe.length ≠ 0 ∧
        (resourceGroup.ResourceNameIncludeRe.any fun rx => rx resource.Name) = false then
      filterResources rest resourceGroup
    else if (resourceGroup.ResourceNameExcludeRe.any fun rx => rx resource.Name) = true then
      filterResources rest resourceGroup
    else
      resource :: filterResources rest resourceGroup

theorem filterResources_mem (resources : List AzureResource) (resourceGroup : ResourceGroup)
    (r : AzureResource) :
    r ∈ filterResources resources resourceGroup ↔
      r ∈ resources ∧
      (resourceGroup.ResourceNameIncludeRe = [] ∨
        ∃ rx ∈ resourceGroup.ResourceNameIncludeRe, rx r.Name = true) ∧
      (∀ rx ∈ resourceGroup.ResourceNameExcludeRe, rx r.Name = false) := by
  induction resources with
  | nil => simp [filterResources]
  | cons a rest ih =>
    simp only [filterResources]
    split_ifs with h1 h2
    · rw [ih]
      constructor
      · rintro ⟨hm, hp⟩
        exact ⟨List.mem_cons_of_mem _ hm, hp⟩
      · rintro ⟨hm, hinc, hexc⟩
        rcases List.mem_cons.mp hm with rfl | hm
        · exfalso
          rcases hinc with hnil | ⟨rx, hrx, htrue⟩
          · rw [hnil] at h1
            exact h1.1 rfl
          · exact List.any_eq_false.mp h1.2 rx hrx htrue
        · exact ⟨hm, hinc, hexc⟩
    · rw [ih]
      constructor
      · rintro ⟨hm, hp⟩
        exact ⟨List.mem_cons_of_mem _ hm, hp⟩
      · rintro ⟨hm, hinc, hexc⟩
        rcases List.mem_cons.mp hm with rfl | hm
        · obtain ⟨rx, hrx, htrue⟩ := List.any_eq_true.mp h2
          have hfalse := hexc rx hrx
          rw [hfalse] at htrue
          exact Bool.noConfusion htrue
        · exact ⟨hm, hinc, hexc⟩
    · rw [List.mem_cons, ih, List.mem_cons]
      have hinc : resourceGroup.ResourceNameIncludeRe = [] ∨
          ∃ rx ∈ resourceGroup.ResourceNameIncludeRe, rx a.Name = true := by
        by_cases hn : resourceGroup.ResourceNameIncludeRe = []
        · exact Or.inl hn
        · right
          have hlen : resourceGroup.ResourceNameIncludeRe.length ≠ 0 := by
            simpa [List.length_eq_zero] using hn
          rcases Bool.eq_false_or_eq_true
              (resourceGroup.ResourceNameIncludeRe.any fun rx => rx a.Name) with ht | hf
          · exact List.any_eq_true.mp ht
          · exact absurd ⟨hlen, hf⟩ h1
      have hexc : ∀ rx ∈ resourceGroup.ResourceNameExcludeRe, rx a.Name = false := by
        intro rx hrx
        exact eq_false_of_ne_true (List.any_eq_false.mp (eq_false_of_ne_true h2) rx hrx)
      constructor
      · rintro (rfl | ⟨hm, hp⟩)
        · exact ⟨Or.inl rfl, hinc, hexc⟩
        · exact ⟨Or.inr hm, hp⟩
      · rintro ⟨rfl | hm, hp⟩
        · exact Or.inl rfl
        · exact Or.inr ⟨hm, hp⟩

/-- A resource that carries only a name, as in the spec's worked example. -/
def namedResource (s : String) : AzureResource :=
  ⟨[], s.toList, [], [], [], [], []⟩

/-- The spec's example configuration: include patterns `{"^web"}`, exclude
patterns `{"-test$"}`, rendered as their matching semantics. -/
def webGroup : ResourceGroup :=
  ⟨[fun n => "web".toList.isPrefixOf n], [fun n => "-test".toList.isSuffixOf n]⟩

/-- Claim C5: name filtering keeps a resource iff it matches at least one
include pattern (vacuously when there are no include patterns) and matches
no exclude pattern; on the spec's example — include `{^web}`, exclude
`{-test$}`, names `{web-1, web-test, db-1}` — exactly `web-1` is kept. -/
theorem c5_filter_include_exclude :
    (∀ (resources : List AzureResource) (resourceGroup : ResourceGroup) (r : AzureResource),
        r ∈ filterResources resources resourceGroup ↔
          r ∈ resources ∧
          (resourceGroup.ResourceNameIncludeRe = [] ∨
            ∃ rx ∈ resourceGroup.ResourceNameIncludeRe, rx r.Name = true) ∧
          (∀ rx ∈ resourceGroup.ResourceNameExcludeRe, rx r.Name = false)) ∧
    filterResources
        [namedResource "web-1", namedResource "web-test", namedResource "db-1"] webGroup =
      [namedResource "web-1"] :=
  ⟨filterResources_mem, by decide⟩

/-! ## Batch Executor (main.go, batchCollectResources lines 117-142) -/

/-- `batchSize = 20` (main.go line 30). -/
def batchSize : Nat := 20

/-- The consecutive slices `resources[i:j]` (`i = 0, B, 2B, ...`,
`j = min (i+B) (len resources)`) walked by the loop
`for i := 0; i < len(resources); i += batchSize`. The loop consumes at
least one element per iteration (`batchSize > 0`), so `fuel := l.length`
always suffices; the counter only makes the recursion structural. -/
def chunksOfFuel {α : Type*} : Nat → List α → List (List α)
  | _, [] => []
  | 0, _ => []
  | fuel + 1, a :: rest =>
    ((a :: rest).take batchSize) :: chunksOfFuel fuel ((a :: rest).drop batchSize)

def chunksOf {α : Type*} (l : List α) : List (List α) :=
  chunksOfFuel l.length l

/-- `resourceMeta` (main.go lines 45-50). -/
structure resourceMeta where
  ResourceURL : List Char
  Metrics : String
  Aggregations : List String
  Resource : AzureResource
deriving DecidableEq

theorem chunksOfFuel_flatten {α : Type*} :
    ∀ (fuel : Nat) (l : List α), l.length ≤ fuel → (chunksOfFuel fuel l).flatten = l := by
  intro fuel
  induction fuel with
  | zero =>
    intro l hl
    rw [List.length_eq_zero.mp (Nat.le_zero.mp hl)]
    rfl
  | succ n ih =>
    intro l hl
    match l with
    | [] => rfl
    | a :: rest =>
      rw [chunksOfFuel, List.flatten_cons, ih]
      · exact List.take_append_drop _ _
      · simp only [List.length_drop, List.length_cons, batchSize] at *
        omega

theorem chunksOf_flatten {α : Type*} (l : List α) : (chunksOf l).flatten = l :=
  chunksOfFuel_flatten l.length l le_rfl

theorem chunksOfFuel_length {α : Type*} :
    ∀ (fuel : Nat) (l : List α), l.length ≤ fuel →
      (chunksOfFuel fuel l).length = (l.length + batchSize - 1) / batchSize := by
  intro fuel
  induction fuel with
  | zero =>
    intro l hl
    rw [List.length_eq_zero.mp (Nat.le_zero.mp hl)]
    simp [chunksOfFuel, batchSize]
  | succ n ih =>
    intro l hl
    match l with
    | [] => simp [chunksOfFuel, batchSize]
    | a :: rest =>
      rw [chunksOfFuel, List.length_cons, ih]
      · simp only [List.length_drop, List.length_cons, batchSize]
        omega
      · simp only [List.length_drop, List.length_cons, batchSize] at *
        omega

theorem chunksOf_length {α : Type*} (l : List α) :
    (chunksOf l).length = (l.length + batchSize - 1) / batchSize :=
  chunksOfFuel_length l.length l le_rfl

theorem chunksOfFuel_mem {α : Type*} :
    ∀ (fuel : Nat) (l : List α), l.length ≤ fuel →
      ∀ g ∈ chunksOfFuel fuel l, g ≠ [] ∧ g.length ≤ batchSize := by
  intro fuel
  induction fuel with
  | zero =>
    intro l hl g hg
    rw [List.length_eq_zero.mp (Nat.le_zero.mp hl)] at hg
    exact absurd hg (List.not_mem_nil g)
  | succ n ih =>
    intro l hl g hg
    match l with
    | [] => exact absurd hg (List.not_mem_nil g)
    | a :: rest =>
      rw [chunksOfFuel] at hg
      rcases List.mem_cons.mp hg with rfl | hg
      · constructor
        · simp [batchSize]
        · simp [List.length_take]
      · exact ih _ (by simp only [List.length_drop, List.length_cons, batchSize] at *; omega)
          g hg

theorem chunksOfFuel_dropLast {α : Type*} :
    ∀ (fuel : Nat) (l : List α), l.length ≤ fuel →
      ∀ g ∈ (chunksOfFuel fuel l).dropLast, g.length = batchSize := by
  intro fuel
  induction fuel with
  | zero =>
    intro l hl g hg
    rw [List.length_eq_zero.mp (Nat.le_zero.mp hl)] at hg
    exact absurd hg (List.not_mem_nil g)
  | succ n ih =>
    intro l hl g hg
    match l with
    | [] => exact absurd hg (List.not_mem_nil g)
    | a :: rest =>
      rw [chunksOfFuel] at hg
      have hdrop : ((a :: rest).drop batchSize).length ≤ n := by
        simp only [List.length_drop, List.length_cons, batchSize] at *
        omega
      match hc : chunksOfFuel n ((a :: rest).drop batchSize) with
      | [] => rw [hc] at hg; exact absurd hg (List.not_mem_nil g)
      | c :: cs =>
        rw [hc, List.dropLast_cons₂, List.mem_cons] at hg
        rcases hg with rfl | hg
        · -- a later chunk exists, so this one is a full slice of length `batchSize`
          have hne : (a :: rest).drop batchSize ≠ [] := by
            intro hnil
            rw [hnil] at hc
            cases n <;> simp [chunksOfFuel] at hc
          have : batchSize < (a :: rest).length := by
            by_contra hle
            exact hne (List.drop_eq_nil_of_le (by omega))
          simp only [List.length_take]
          omega
        · exact ih _ hdrop g (hc ▸ hg)

/-- The batch loop of `Collector.batchCollectResources`, one recursive step
per slice. `getBatchMetricValues` is the combined HTTP call
(`AzureClient.getBatchMetricValues`), performed externally; `Except.error`
is its transport/decoding failure. Per group the loop collects the slice's
`ResourceURL`s, issues one combined call, and on failure sends one
`azure_error` invalid metric and returns, abandoning all later groups
(`aborted = true` below). On success
`for k, resp := range batchData.Responses` hands `resources[i+k]` paired
with the k-th sub-response to `extractMetrics`: positionally, which the
`zip` renders exactly when the response carries one entry per submitted
sub-request (the protocol invariant assumed in the theorem below). -/
def runBatches {ε ρ : Type*} (getBatchMetricValues : List (List Char) → Except ε (List ρ)) :
    List (List resourceMeta) → List (List (List Char)) × List (resourceMeta × ρ) × Bool
  | [] => ([], [], false)
  | group :: rest =>
    let urls := group.map resourceMeta.ResourceURL
    match getBatchMetricValues urls with
    | .error _ => ([urls], [], true)
    | .ok resps =>
      let out := runBatches getBatchMetricValues rest
      (urls :: out.1, group.zip resps ++ out.2.1, out.2.2)

def batchCollectResources {ε ρ : Type*}
    (getBatchMetricValues : List (List Char) → Except ε (List ρ))
    (resources : List resourceMeta) :
    List (List (List Char)) × List (resourceMeta × ρ) × Bool :=
  runBatches getBatchMetricValues (chunksOf resources)

theorem runBatches_ok {ε ρ : Type*} (f : List (List Char) → List ρ)
    (gs : List (List resourceMeta)) :
    runBatches (fun urls => (Except.ok (f urls) : Except ε (List ρ))) gs =
      (gs.map (fun g => g.map resourceMeta.ResourceURL),
       gs.flatMap (fun g => g.zip (f (g.map resourceMeta.ResourceURL))),
       false) := by
  induction gs with
  | nil => rfl
  | cons g rest ih => simp [runBatches, ih]

/-- Claim C4: with batch size `B = batchSize = 20` and every combined call
succeeding with one sub-response per submitted sub-request, the executor
issues exactly `⌈N/B⌉` batch calls over `N` resolved queries, every issued
group except possibly the last has size exactly `B` (none exceeds `B`, none
is empty), the queries handed to the translator are exactly the input
queries in order, and the sub-responses are consumed in order batch by
batch — so the i-th sub-response of a batch is paired with the i-th query
submitted in that batch. -/
theorem c4_batch_partitioning {ε ρ : Type*} (f : List (List Char) → List ρ)
    (hf : ∀ urls, (f urls).length = urls.length)
    (resources : List resourceMeta)
    (calls : List (List (List Char))) (handed : List (resourceMeta × ρ)) (aborted : Bool)
    (hout : batchCollectResources (fun urls => (Except.ok (f urls) : Except ε (List ρ)))
        resources = (calls, handed, aborted)) :
    calls.length = (resources.length + batchSize - 1) / batchSize ∧
    (∀ c ∈ calls, c ≠ [] ∧ c.length ≤ batchSize) ∧
    (∀ c ∈ calls.dropLast, c.length = batchSize) ∧
    handed.map Prod.fst = resources ∧
    handed.map Prod.snd = (calls.map f).flatten ∧
    aborted = false := by
  rw [batchCollectResources, runBatches_ok] at hout
  obtain ⟨rfl, rfl, rfl⟩ : calls = (chunksOf resources).map (fun g => g.map resourceMeta.ResourceURL) ∧
      handed = (chunksOf resources).flatMap
        (fun g => g.zip (f (g.map resourceMeta.ResourceURL))) ∧ aborted = false := by
    have h1 := congrArg Prod.fst hout
    have h2 := congrArg (fun p => p.2.1) hout
    have h3 := congrArg (fun p => p.2.2) hout
    exact ⟨h1.symm, h2.symm, h3.symm⟩
  have hzipfst : ∀ g : List resourceMeta,
      (g.zip (f (g.map resourceMeta.ResourceURL))).map Prod.fst = g := by
    intro g
    apply List.map_fst_zip
    rw [hf, List.length_map]
  have hzipsnd : ∀ g : List resourceMeta,
      (g.zip (f (g.map resourceMeta.ResourceURL))).map Prod.snd
        = f (g.map resourceMeta.ResourceURL) := by
    intro g
    apply List.map_snd_zip
    rw [hf, List.length_map]
  refine ⟨?_, ?_, ?_, ?_, ?_, rfl⟩
  · rw [List.length_map, chunksOf_length]
  · intro c hc
    rw [List.mem_map] at hc
    obtain ⟨g, hg, rfl⟩ := hc
    obtain ⟨hne, hlen⟩ := chunksOfFuel_mem resources.length resources le_rfl g hg
    constructor
    · simpa using hne
    · simpa using hlen
  · intro c hc
    rw [← List.map_dropLast, List.mem_map] at hc
    obtain ⟨g, hg, rfl⟩ := hc
    rw [List.length_map]
    exact chunksOfFuel_dropLast resources.length resources le_rfl g hg
  · rw [List.map_flatMap]
    calc (chunksOf resources).flatMap
          (fun g => (g.zip (f (g.map resourceMeta.ResourceURL))).map Prod.fst)
        = (chunksOf resources).flatMap (fun g => g) := by
          apply List.flatMap_congr
          intro g _
          exact hzipfst g
      _ = resources := by
          rw [show (fun g : List resourceMeta => g) = id from rfl, List.flatMap_id]
          exact chunksOf_flatten resources
  · rw [List.map_flatMap, List.flatMap_def, List.map_map]
    congr 1
    apply List.map_congr_left
    intro g _
    simpa using hzipsnd g

/-- A concrete resolved query, for exercising the batch executor. -/
def sampleMeta : resourceMeta :=
  ⟨"/subscriptions/s/resourceGroups/rg/vm".toList, "CpuUsage", ["Total"], namedResource "vm"⟩

/-- Witness for C4: 25 resolved queries against an echoing batch endpoint
are issued in exactly ⌈25/20⌉ = 2 combined calls. -/
theorem c4_batch_partitioning_witness :
    (batchCollectResources (fun urls => (Except.ok urls : Except Unit (List (List Char))))
        (List.replicate 25 sampleMeta)).1.length = 2 := by
  have h := c4_batch_partitioning (ε := Unit) (fun urls => urls) (fun _ => rfl)
      (List.replicate 25 sampleMeta) _ _ _ rfl
  exact h.1.trans (by rfl)

/-! ## Subscription path stripping (azure.go, extendResources lines 438-447) -/

/-- `AzureResourceListResponse.extendResources`:

    subscription := fmt.Sprintf("subscriptions/%s", sc.C.Credentials.SubscriptionID)
    var subscriptionPrefixLen = len(subscription) + 1
    for i, val := range ar.Value {
        ar.Value[i].ID = val.ID[subscriptionPrefixLen:]
        ar.Value[i].Subscription = sc.C.Credentials.SubscriptionID
    }

Go slicing `s[n:]` demands `n ≤ len(s)` and panics otherwise; the panic is
modelled as `none` (earlier in-place mutations are unobservable once the
collection goroutine dies). -/
def extendResources (subscriptionID : List Char) :
    List AzureResource → Option (List AzureResource)
  | [] => some []
  | val :: rest =>
    if ("subscriptions/".toList ++ subscriptionID).length + 1 ≤ val.ID.length then
      match extendResources subscriptionID rest with
      | some out =>
        some ({ val with
                  ID := val.ID.drop (("subscriptions/".toList ++ subscriptionID).length + 1),
                  Subscription := subscriptionID } :: out)
      | none => none
    else none

/-- Claim C10: the stripping pass succeeds exactly when every listed
identifier is at least as long as the `subscriptions/<id>` path plus one
character (the Go slice bound `subscriptionPrefixLen ≤ len(val.ID)`); any
shorter identifier makes the slice out of bounds — a panic (`none`), not an
error value. -/
theorem c10_strip_in_bounds_iff (subscriptionID : List Char) (value : List AzureResource) :
    (extendResources subscriptionID value).isSome = true ↔
      ∀ val ∈ value,
        ("subscriptions/".toList ++ subscriptionID).length + 1 ≤ val.ID.length := by
  induction value with
  | nil => simp [extendResources]
  | cons a rest ih =>
    simp only [extendResources]
    split_ifs with h1
    · cases hrec : extendResources subscriptionID rest with
      | some out =>
        simp only [hrec, Option.isSome_some, true_iff]
        intro val hval
        rcases List.mem_cons.mp hval with rfl | hval
        · exact h1
        · exact ih.mp (by rw [hrec]; rfl) val hval
      | none =>
        simp only [hrec]
        constructor
        · intro hfalse
          exact absurd hfalse (by simp)
        · intro hall
          have hsome := ih.mpr (fun val hval => hall val (List.mem_cons_of_mem _ hval))
          rw [hrec] at hsome
          exact absurd hsome (by simp)
    · constructor
      · intro hfalse
        exact absurd hfalse (by simp)
      · intro hall
        exact absurd (hall a (List.mem_cons_self _ _)) h1

/-- Claim C7: when the listing response is stripped successfully, each
returned descriptor whose incoming identifier was
`/subscriptions/<id><tail>` ends up with identifier exactly `<tail>` (the
subscription segment is gone) and with its `Subscription` field set to the
active subscription identifier. -/
theorem c7_strip_and_subscription (subscriptionID : List Char)
    (value out : List AzureResource)
    (hout : extendResources subscriptionID value = some out) :
    out.length = value.length ∧
    ∀ (i : Nat) (hi : i < value.length) (ho : i < out.length) (tail : List Char),
      (value.get ⟨i, hi⟩).ID = '/' :: ("subscriptions/".toList ++ subscriptionID) ++ tail →
      (out.get ⟨i, ho⟩).ID = tail ∧ (out.get ⟨i, ho⟩).Subscription = subscriptionID := by
  induction value generalizing out with
  | nil =>
    simp only [extendResources, Option.some.injEq] at hout
    subst hout
    refine ⟨rfl, ?_⟩
    intro i hi
    exact absurd hi (by simp)
  | cons a rest ih =>
    simp only [extendResources] at hout
    split_ifs at hout with h1
    · cases hrec : extendResources subscriptionID rest with
      | none =>
        rw [hrec] at hout
        exact absurd hout (by simp)
      | some out2 =>
        rw [hrec] at hout
        simp only [Option.some.injEq] at hout
        subst hout
        obtain ⟨hlen, hidx⟩ := ih out2 hrec
        refine ⟨by simp [hlen], ?_⟩
        intro i hi ho tail hID
        match i with
        | 0 =>
          refine ⟨?_, rfl⟩
          show a.ID.drop (("subscriptions/".toList ++ subscriptionID).length + 1) = tail
          have hID0 : a.ID = '/' :: ("subscriptions/".toList ++ subscriptionID) ++ tail := hID
          have hlen1 : ("subscriptions/".toList ++ subscriptionID).length + 1
              = ('/' :: ("subscriptions/".toList ++ subscriptionID) : List Char).length := by
            simp
          rw [hID0, hlen1, List.drop_left]
        | i + 1 =>
          exact hidx i (by simpa using hi) (by simpa using ho) tail hID

/-- A resource as it appears in a list response, before stripping. -/
def sampleListed : AzureResource :=
  { ID := "/subscriptions/abc/resourceGroups/rg".toList, Name := "r".toList, Location := [],
    resourceType := [], Tags := [], ManagedBy := [], Subscription := [] }

/-- The descriptor `extendResources` produces from `sampleListed` under
subscription `abc`. -/
def sampleStripped : AzureResource :=
  { sampleListed with ID := "/resourceGroups/rg".toList, Subscription := "abc".toList }

/-- Witness for C7 at a concrete listing. -/
theorem c7_strip_and_subscription_witness :
    sampleStripped.ID = "/resourceGroups/rg".toList ∧
    sampleStripped.Subscription = "abc".toList := by
  have h := c7_strip_and_subscription "abc".toList [sampleListed] [sampleStripped] (by decide)
  exact h.2 0 (by decide) (by decide) "/resourceGroups/rg".toList (by decide)

/-- Witness for C6 at a concrete metric name and unit. -/
theorem c6_sanitized_name_wellformed_witness :
    'd' ∈ sanitizeMetricName "Disk Read Bytes/sec".toList "CountPerSecond".toList ∧
    ((('a' ≤ 'd' ∧ 'd' ≤ 'z') ∨ (('0' : Char) ≤ 'd' ∧ 'd' ≤ '9') ∨ 'd' = '_' ∨ 'd' = ':') ∧
      ¬ ('A' ≤ 'd' ∧ 'd' ≤ 'Z') ∧ 'd' ≠ '/') :=
  ⟨by decide,
   (c6_sanitized_name_wellformed "Disk Read Bytes/sec".toList "CountPerSecond".toList).2
      'd' (by decide)⟩

/-- Witness for C5: the kept resource of the worked example is indeed in
the filtered list, via the membership characterization. -/
theorem c5_filter_include_exclude_witness :
    namedResource "web-1" ∈
      [namedResource "web-1", namedResource "web-test", namedResource "db-1"] :=
  ((c5_filter_include_exclude.1
      [namedResource "web-1", namedResource "web-test", namedResource "db-1"] webGroup
      (namedResource "web-1")).mp (by decide)).1

/-- Witness for C10: a listing whose identifier clears the bound strips
successfully. -/
theorem c10_strip_in_bounds_iff_witness :
    (extendResources "abc".toList [sampleListed]).isSome = true :=
  (c10_strip_in_bounds_iff "abc".toList [sampleListed]).mpr (by decide)

/-! ## API Version Resolver (azure.go, latestVersionFrom lines 116-134) -/

/-- Gregorian leap-year rule, as Go `time.Parse` applies it when validating
a day-of-month. -/
def isLeapYear (y : Nat) : Bool :=
  y % 4 == 0 && (y % 100 != 0 || y % 400 == 0)

def daysInMonth (y m : Nat) : Nat :=
  if m = 2 then (if isLeapYear y then 29 else 28)
  else if m = 4 ∨ m = 6 ∨ m = 9 ∨ m = 11 then 30
  else 31

def digitVal (c : Char) : Nat := c.toNat - '0'.toNat

/-- `apiVersionDate.FindString(api)` (the regexp `^\d{4}-\d{2}-\d{2}`)
followed by `time.Parse("2006-01-02", dateStr)`: the candidate must open
with a ten-character date token, whose month and day-of-month
`time.Parse` range-checks. An empty `FindString` result (no leading date
token) makes `time.Parse` fail, so both failure modes collapse to `none`,
which `latestVersionFrom` logs and skips. -/
def parseVersionDate : List Char → Option (Nat × Nat × Nat)
  | c1 :: c2 :: c3 :: c4 :: h1 :: c5 :: c6 :: h2 :: c7 :: c8 :: _ =>
    if c1.isDigit && c2.isDigit && c3.isDigit && c4.isDigit && (h1 == '-') &&
        c5.isDigit && c6.isDigit && (h2 == '-') && c7.isDigit && c8.isDigit then
      let y := ((digitVal c1 * 10 + digitVal c2) * 10 + digitVal c3) * 10 + digitVal c4
      let m := digitVal c5 * 10 + digitVal c6
      let d := digitVal c7 * 10 + digitVal c8
      if 1 ≤ m ∧ m ≤ 12 ∧ 1 ≤ d ∧ d ≤ daysInMonth y m then some (y, m, d) else none
    else none
  | _ => none

/-- The `time.Time` zero value (January 1 of year 1): the `Date` of the
initial `latest = &APIVersionData{}`. -/
def goZeroDate : Nat × Nat × Nat := (1, 1, 1)

/-- `a.Before(b)` restricted to dates: lexicographic year/month/day. -/
def dateBefore (a b : Nat × Nat × Nat) : Bool :=
  decide (a.1 < b.1 ∨ (a.1 = b.1 ∧ (a.2.1 < b.2.1 ∨ (a.2.1 = b.2.1 ∧ a.2.2 < b.2.2))))

/-- One iteration of the loop in `latestVersionFrom`: skip the candidate if
its date fails to parse (after logging), replace the running best exactly
when `latest.Date.Before(date)` — i.e. on a strictly newer date. (The
`latest == nil` disjunct in the source is dead: `latest` starts at
`&APIVersionData{}` and is never nil.) -/
def latestStep (latest : List Char × (Nat × Nat × Nat)) (api : List Char) :
    List Char × (Nat × Nat × Nat) :=
  match parseVersionDate api with
  | none => latest
  | some date => if dateBefore latest.2 date then (api, date) else latest

/-- `latestVersionFrom` (azure.go lines 116-134): fold the loop over the
candidate list, starting from the zero `APIVersionData` (empty endpoint,
zero time), and return the final `latest.Endpoint`. -/
def latestVersionFrom (apiList : List (List Char)) : List Char :=
  (apiList.foldl latestStep ([], goZeroDate)).1

theorem dateBefore_irrefl (a : Nat × Nat × Nat) : dateBefore a a = false := by
  simp only [dateBefore, decide_eq_false_iff_not]
  omega

theorem dateBefore_trans {a b c : Nat × Nat × Nat} (h1 : dateBefore a b = true)
    (h2 : dateBefore b c = true) : dateBefore a c = true := by
  simp only [dateBefore, decide_eq_true_eq] at *
  omega

theorem dateBefore_false_trans {a b c : Nat × Nat × Nat} (h1 : dateBefore b a = false)
    (h2 : dateBefore b c = true) : dateBefore a c = true := by
  simp only [dateBefore, decide_eq_true_eq, decide_eq_false_iff_not] at *
  omega

theorem dateBefore_false_of_true {a b c : Nat × Nat × Nat} (h1 : dateBefore a b = false)
    (h2 : dateBefore a c = true) : dateBefore c b = false := by
  simp only [dateBefore, decide_eq_true_eq, decide_eq_false_iff_not] at *
  omega

/-- Loop invariant for `latestVersionFrom`: either nothing parseable and
later than the zero time has been seen and the accumulator is still the
zero `APIVersionData`, or the accumulator holds the first candidate seen
that carries the maximum date among all candidates processed so far. -/
def latestInv (processed : List (List Char)) (acc : List Char × (Nat × Nat × Nat)) : Prop :=
  (acc = ([], goZeroDate) ∧
    ∀ api ∈ processed, ∀ dd, parseVersionDate api = some dd →
      dateBefore goZeroDate dd = false) ∨
  (∃ l1 l2, processed = l1 ++ acc.1 :: l2 ∧
    parseVersionDate acc.1 = some acc.2 ∧
    dateBefore goZeroDate acc.2 = true ∧
    (∀ api ∈ processed, ∀ dd, parseVersionDate api = some dd →
      dateBefore acc.2 dd = false) ∧
    (∀ api ∈ l1, ∀ dd, parseVersionDate api = some dd → dateBefore dd acc.2 = true))

theorem latestInv_step (processed : List (List Char)) (acc : List Char × (Nat × Nat × Nat))
    (api : List Char) (h : latestInv processed acc) :
    latestInv (processed ++ [api]) (latestStep acc api) := by
  rcases hp : parseVersionDate api with _ | dp
  · -- unparsable candidate: skipped, everything unchanged
    have hstep : latestStep acc api = acc := by simp [latestStep, hp]
    rw [hstep]
    rcases h with ⟨hacc, hall⟩ | ⟨l1, l2, hsplit, hparse, hzero, hmax, hfirst⟩
    · refine Or.inl ⟨hacc, ?_⟩
      intro x hx dd hdd
      rcases List.mem_append.mp hx with hx | hx
      · exact hall x hx dd hdd
      · rw [List.mem_singleton.mp hx, hp] at hdd
        exact absurd hdd (by simp)
    · refine Or.inr ⟨l1, l2 ++ [api], ?_, hparse, hzero, ?_, hfirst⟩
      · rw [hsplit]
        simp
      · intro x hx dd hdd
        rcases List.mem_append.mp hx with hx | hx
        · exact hmax x hx dd hdd
        · rw [List.mem_singleton.mp hx, hp] at hdd
          exact absurd hdd (by simp)
  · -- parsed candidate: replace the best exactly on a strictly newer date
    rcases h with ⟨hacc, hall⟩ | ⟨l1, l2, hsplit, hparse, hzero, hmax, hfirst⟩
    · subst hacc
      by_cases hlt : dateBefore goZeroDate dp = true
      · have hstep : latestStep ([], goZeroDate) api = (api, dp) := by
          simp [latestStep, hp, hlt]
        rw [hstep]
        refine Or.inr ⟨processed, [], by simp, hp, hlt, ?_, ?_⟩
        · intro x hx dd hdd
          rcases List.mem_append.mp hx with hx | hx
          · exact dateBefore_false_of_true (hall x hx dd hdd) hlt
          · rw [List.mem_singleton.mp hx, hp] at hdd
            obtain rfl := Option.some.inj hdd
            exact dateBefore_irrefl dp
        · intro x hx dd hdd
          exact dateBefore_false_trans (hall x hx dd hdd) hlt
      · have hf : dateBefore goZeroDate dp = false := eq_false_of_ne_true hlt
        have hstep : latestStep ([], goZeroDate) api = ([], goZeroDate) := by
          simp [latestStep, hp, hf]
        rw [hstep]
        refine Or.inl ⟨rfl, ?_⟩
        intro x hx dd hdd
        rcases List.mem_append.mp hx with hx | hx
        · exact hall x hx dd hdd
        · rw [List.mem_singleton.mp hx, hp] at hdd
          obtain rfl := Option.some.inj hdd
          exact hf
    · by_cases hlt : dateBefore acc.2 dp = true
      · have hstep : latestStep acc api = (api, dp) := by simp [latestStep, hp, hlt]
        rw [hstep]
        refine Or.inr ⟨processed, [], by simp, hp, dateBefore_trans hzero hlt, ?_, ?_⟩
        · intro x hx dd hdd
          rcases List.mem_append.mp hx with hx | hx
          · exact dateBefore_false_of_true (hmax x hx dd hdd) hlt
          · rw [List.mem_singleton.mp hx, hp] at hdd
            obtain rfl := Option.some.inj hdd
            exact dateBefore_irrefl dp
        · intro x hx dd hdd
          exact dateBefore_false_trans (hmax x hx dd hdd) hlt
      · have hf : dateBefore acc.2 dp = false := eq_false_of_ne_true hlt
        have hstep : latestStep acc api = acc := by simp [latestStep, hp, hf]
        rw [hstep]
        refine Or.inr ⟨l1, l2 ++ [api], ?_, hparse, hzero, ?_, hfirst⟩
        · rw [hsplit]
          simp
        · intro x hx dd hdd
          rcases List.mem_append.mp hx with hx | hx
          · exact hmax x hx dd hdd
          · rw [List.mem_singleton.mp hx, hp] at hdd
            obtain rfl := Option.some.inj hdd
            exact hf

theorem latestInv_foldl (rest : List (List Char)) :
    ∀ (processed : List (List Char)) (acc : List Char × (Nat × Nat × Nat)),
      latestInv processed acc →
      latestInv (processed ++ rest) (rest.foldl latestStep acc) := by
  induction rest with
  | nil =>
    intro processed acc h
    simpa using h
  | cons x xs ih =>
    intro processed acc h
    have h2 := latestInv_step processed acc x h
    have h3 := ih (processed ++ [x]) (latestStep acc x) h2
    simpa [List.append_assoc] using h3

/-- Counterexample for C3: two candidates with equal leading dates
(`2020-01-01` and `2020-01-01-preview`); the code keeps the FIRST one
encountered, not the last, because the running best is replaced only on
`latest.Date.Before(date)` — a strict comparison. -/
theorem c3_counterexample_first_wins_on_tie :
    latestVersionFrom ["2020-01-01".toList, "2020-01-01-preview".toList]
        = "2020-01-01".toList ∧
    latestVersionFrom ["2020-01-01".toList, "2020-01-01-preview".toList]
        ≠ "2020-01-01-preview".toList := by
  constructor
  · rfl
  · decide

/-- Claim C3 (amended): version selection parses the leading `YYYY-MM-DD`
token of each candidate, discards candidates whose date fails to parse
without aborting resolution, and — provided some candidate parses to a date
after Go's zero time, as every real version string does — returns a
candidate carrying the maximum parsed date; under equal maximal dates the
FIRST candidate encountered in list order wins (every candidate before the
returned one has a strictly earlier parsed date). -/
theorem c3_latest_version_max_first_wins (apiList : List (List Char))
    (h : ∃ api ∈ apiList, ∃ d, parseVersionDate api = some d ∧
        dateBefore goZeroDate d = true) :
    ∃ l1 l2 dr,
      apiList = l1 ++ latestVersionFrom apiList :: l2 ∧
      parseVersionDate (latestVersionFrom apiList) = some dr ∧
      (∀ api ∈ apiList, ∀ d, parseVersionDate api = some d → dateBefore dr d = false) ∧
      (∀ api ∈ l1, ∀ d, parseVersionDate api = some d → dateBefore d dr = true) := by
  have h0 : latestInv [] ([], goZeroDate) := Or.inl ⟨rfl, by simp⟩
  have hinv := latestInv_foldl apiList [] ([], goZeroDate) h0
  rw [List.nil_append] at hinv
  rcases hinv with ⟨_, hall⟩ | ⟨l1, l2, hsplit, hparse, _, hmax, hfirst⟩
  · obtain ⟨api, hapi, d, hd, hdz⟩ := h
    rw [hall api hapi d hd] at hdz
    exact absurd hdz (by simp)
  · exact ⟨l1, l2, _, hsplit, hparse, hmax, hfirst⟩

/-- Witness for C3 (amended) on a concrete candidate list. -/
theorem c3_latest_version_max_first_wins_witness :
    ∃ l1 l2 dr,
      ["2019-06-01".toList, "2020-01-01".toList, "2020-01-01-preview".toList]
          = l1 ++ latestVersionFrom
              ["2019-06-01".toList, "2020-01-01".toList, "2020-01-01-preview".toList] :: l2 ∧
      parseVersionDate (latestVersionFrom
          ["2019-06-01".toList, "2020-01-01".toList, "2020-01-01-preview".toList]) = some dr ∧
      (∀ api ∈ ["2019-06-01".toList, "2020-01-01".toList, "2020-01-01-preview".toList],
        ∀ d, parseVersionDate api = some d → dateBefore dr d = false) ∧
      (∀ api ∈ l1, ∀ d, parseVersionDate api = some d → dateBefore d dr = true) :=
  c3_latest_version_max_first_wins _
    ⟨"2019-06-01".toList, by decide, (2019, 6, 1), by decide, by decide⟩

/-! ## Token Provider (azure.go, getAccessToken lines 178-212) -/

/-- A decoded JSON value, as far as the `map[string]interface{}` type
assertions in `getAccessToken` can distinguish one. -/
inductive JsonValue where
  | jstr (s : List Char)
  | jnum (q : ℚ)
  | jbool (b : Bool)
  | jnull
  | jarr
  | jobj
deriving DecidableEq

/-- How a call to `getAccessToken` can end: normal return with the token
and epoch expiry stored on the client, an error return, or a runtime panic
from a failed type assertion. -/
inductive TokenOutcome where
  | ok (accessToken : List Char) (expiresOn : Int)
  | err
  | panicked
deriving DecidableEq

/-- Go `strconv.ParseInt(s, 10, 64)`: optional sign, then one or more
decimal digits, value within the int64 range. On overflow Go returns a
clamped value together with an error, and `getAccessToken` propagates the
error, so `none` is faithful there too. -/
def decDigits : List Char → Option Nat
  | [] => none
  | cs =>
    if cs.all Char.isDigit then some (cs.foldl (fun n c => n * 10 + digitVal c) 0) else none

def parseGoInt (s : List Char) : Option Int :=
  match s with
  | '+' :: rest =>
    (decDigits rest).bind fun n =>
      if n ≤ 9223372036854775807 then some (Int.ofNat n) else none
  | '-' :: rest =>
    (decDigits rest).bind fun n =>
      if n ≤ 9223372036854775808 then some (-(Int.ofNat n)) else none
  | _ =>
    (decDigits s).bind fun n =>
      if n ≤ 9223372036854775807 then some (Int.ofNat n) else none

/-- `AzureClient.getAccessToken`. The parameters stand for the outcomes of
the external calls, in the order the code consults them: `postOk` —
`client.PostForm` succeeded; `statusCode` — HTTP status of the response;
`readOk` — `ioutil.ReadAll` succeeded; `body` — the JSON object decoded
from the body (`none` when `json.Unmarshal` fails). After those checks the
code runs

    ac.accessToken = data["access_token"].(string)
    expiresOn, err := strconv.ParseInt(data["expires_on"].(string), 10, 64)

two UNCHECKED type assertions: a missing key yields a nil interface value
and a non-string value a mismatched one, and either makes `.(string)`
panic; only a failing `ParseInt` of a present string is returned as an
error. -/
def getAccessToken (postOk : Bool) (statusCode : Nat) (readOk : Bool)
    (body : Option (List (String × JsonValue))) : TokenOutcome :=
  if postOk = false then .err
  else if statusCode ≠ 200 then .err
  else if readOk = false then .err
  else
    match body with
    | none => .err
    | some data =>
      match data.lookup "access_token" with
      | some (.jstr accessToken) =>
        match data.lookup "expires_on" with
        | some (.jstr expiresOn) =>
          match parseGoInt expiresOn with
          | some n => .ok accessToken n
          | none => .err
        | _ => .panicked
      | _ => .panicked

/-- Counterexample for C2: a success-status response whose body is the
valid JSON object `{}` (both required fields absent) makes `getAccessToken`
panic on the `data["access_token"].(string)` type assertion — it does not
return an error. -/
theorem c2_counterexample_missing_field_panics :
    getAccessToken true 200 true (some []) = TokenOutcome.panicked ∧
    TokenOutcome.panicked ≠ TokenOutcome.err := by
  decide

theorem getAccessToken_err_of_status {postOk : Bool} {statusCode : Nat} {readOk : Bool}
    {body : Option (List (String × JsonValue))} (h : statusCode ≠ 200) :
    getAccessToken postOk statusCode readOk body = .err := by
  cases postOk <;> simp [getAccessToken, h]

theorem getAccessToken_err_of_unparsable {postOk : Bool} {statusCode : Nat} {readOk : Bool} :
    getAccessToken postOk statusCode readOk none = .err := by
  cases postOk <;> cases readOk <;> by_cases hst : statusCode = 200 <;>
    simp [getAccessToken, hst]

theorem getAccessToken_panicked_iff (postOk : Bool) (statusCode : Nat) (readOk : Bool)
    (body : Option (List (String × JsonValue))) :
    getAccessToken postOk statusCode readOk body = .panicked ↔
      postOk = true ∧ statusCode = 200 ∧ readOk = true ∧
        ∃ data, body = some data ∧
          ((¬ ∃ s, data.lookup "access_token" = some (.jstr s)) ∨
            ((∃ s, data.lookup "access_token" = some (.jstr s)) ∧
              ¬ ∃ s, data.lookup "expires_on" = some (.jstr s))) := by
  cases postOk with
  | false => simp [getAccessToken]
  | true =>
    by_cases hst : statusCode = 200
    swap
    · rw [getAccessToken_err_of_status hst]
      simp [hst]
    · subst hst
      cases readOk with
      | false => simp [getAccessToken]
      | true =>
        cases body with
        | none => simp [getAccessToken]
        | some data =>
          simp only [getAccessToken, Bool.true_eq_false, if_false, ne_eq,
            not_true_eq_false, Option.some.injEq, true_and, exists_eq_left']
          cases hta : data.lookup "access_token" with
          | none => simp
          | some v =>
            cases v with
            | jstr s =>
              cases hte : data.lookup "expires_on" with
              | none => simp
              | some w =>
                cases w with
                | jstr e =>
                  cases hpi : parseGoInt e with
                  | none => simp [hpi]
                  | some n => simp [hpi]
                | jnum q => simp
                | jbool b => simp
                | jnull => simp
                | jarr => simp
                | jobj => simp
            | jnum q => simp
            | jbool b => simp
            | jnull => simp
            | jarr => simp
            | jobj => simp

/-- Claim C2 (amended): `getAccessToken` returns an error when the HTTP
call fails, the status is not success, the body read fails, the body is
unparsable JSON, or both required fields are present as strings but the
expiry string does not parse as an integer; however, when the status is
success and the body parses while the access-token field or the expiry
field is absent or carries a non-string value, it PANICS on the unchecked
type assertion rather than returning an error. -/
theorem c2_token_error_vs_panic (postOk : Bool) (statusCode : Nat) (readOk : Bool)
    (body : Option (List (String × JsonValue))) :
    (statusCode ≠ 200 → getAccessToken postOk statusCode readOk body = .err) ∧
    (body = none → getAccessToken postOk statusCode readOk body = .err) ∧
    (getAccessToken postOk statusCode readOk body = .panicked ↔
      postOk = true ∧ statusCode = 200 ∧ readOk = true ∧
        ∃ data, body = some data ∧
          ((¬ ∃ s, data.lookup "access_token" = some (.jstr s)) ∨
            ((∃ s, data.lookup "access_token" = some (.jstr s)) ∧
              ¬ ∃ s, data.lookup "expires_on" = some (.jstr s)))) :=
  ⟨fun h => getAccessToken_err_of_status h,
   fun h => h ▸ getAccessToken_err_of_unparsable,
   getAccessToken_panicked_iff postOk statusCode readOk body⟩

/-- Witness for C2 (amended): a non-success status yields an error return. -/
theorem c2_token_error_vs_panic_witness :
    getAccessToken true 404 true none = TokenOutcome.err :=
  (c2_token_error_vs_panic true 404 true none).1 (by decide)

/-! ## Metric Translator (main.go, extractMetrics lines 52-115; payload
shapes from azure.go lines 49-73) -/

/-- One entry of `Timeseries[i].Data`. -/
structure MetricDataPoint where
  timeStamp : List Char
  total : ℚ
  average : ℚ
  minimum : ℚ
  maximum : ℚ
deriving DecidableEq

structure MetricTimeseries where
  Data : List MetricDataPoint
deriving DecidableEq

/-- One entry of `AzureMetricValueResponse.Value`: its series list, the
metric name (`Name.Value`) and unit. -/
structure MetricValueEntry where
  Timeseries : List MetricTimeseries
  nameValue : List Char
  unit : List Char
deriving DecidableEq

structure AzureMetricValueResponse where
  Value : List MetricValueEntry
deriving DecidableEq

/-- What `extractMetrics` sends on the Prometheus channel: one gauge per
requested aggregation, and the final untyped `azure_resource_info` sample. -/
inductive Sample where
  | gauge (name : List Char) (value : ℚ)
  | resourceInfo
deriving DecidableEq

/-- Modelled from the spec: `hasAggregation` (called by `extractMetrics`
but not among the provided sources) — whether the requested aggregation
list contains the given kind, per §4.6 "one gauge-style sample per
requested aggregation kind present among {Total, Average, Minimum,
Maximum}". -/
def hasAggregation (aggregations : List String) (agg : String) : Bool :=
  aggregations.contains agg

/-- The body of the `for _, value := range metricValueData.Value` loop for
one entry: index `value.Timeseries[0]` (panic — `none` — if the entry has
no series), take `Data[len(Data)-1]` (panic if the first series has no data
points), then emit one gauge per requested aggregation kind from that last
data point. -/
def extractEntrySamples (aggregations : List String) (value : MetricValueEntry) :
    Option (List Sample) :=
  match value.Timeseries with
  | [] => none
  | ts :: _ =>
    match ts.Data.getLast? with
    | none => none
    | some metricValue =>
      let metricName := sanitizeMetricName value.nameValue value.unit
      some
        ((if hasAggregation aggregations "Total" then
            [Sample.gauge (metricName ++ "_total".toList) metricValue.total] else []) ++
         (if hasAggregation aggregations "Average" then
            [Sample.gauge (metricName ++ "_average".toList) metricValue.average] else []) ++
         (if hasAggregation aggregations "Minimum" then
            [Sample.gauge (metricName ++ "_min".toList) metricValue.minimum] else []) ++
         (if hasAggregation aggregations "Maximum" then
            [Sample.gauge (metricName ++ "_max".toList) metricValue.maximum] else []))

/-- The whole per-entry loop: samples sent before any panic, and whether a
panic occurred (aborting the loop at the offending entry). -/
def runValueEntries (aggregations : List String) :
    List MetricValueEntry → List Sample × Bool
  | [] => ([], false)
  | v :: vs =>
    match extractEntrySamples aggregations v with
    | none => ([], true)
    | some samples =>
      let rest := runValueEntries aggregations vs
      (samples ++ rest.1, rest.2)

/-- `Collector.extractMetrics`: returns the samples sent on the channel and
whether the loop panicked. Guards, in source order: non-200 sub-status —
log and return; `len(Value) == 0 || len(Value[0].Timeseries) == 0` — log
and return; `len(Value[0].Timeseries[0].Data) == 0` — log and return. Note
all three inspect only the FIRST value entry. The `azure_resource_info`
sample is sent only after the loop completes. -/
def extractMetrics (aggregations : List String) (httpStatusCode : Nat)
    (metricValueData : AzureMetricValueResponse) : List Sample × Bool :=
  if httpStatusCode ≠ 200 then ([], false)
  else
    match metricValueData.Value with
    | [] => ([], false)
    | v0 :: rest =>
      match v0.Timeseries with
      | [] => ([], false)
      | ts0 :: _ =>
        if ts0.Data.isEmpty then ([], false)
        else
          let run := runValueEntries aggregations (v0 :: rest)
          if run.2 then (run.1, true) else (run.1 ++ [Sample.resourceInfo], false)

/-- A value entry whose first series has one data point — enough to pass
every guard in `extractMetrics`. -/
def plainEntry : MetricValueEntry :=
  ⟨[⟨[⟨"t1".toList, 1, 1, 1, 1⟩]⟩], "m".toList, "count".toList⟩

/-- A value entry with an empty series list, as Azure returns for a metric
with no data at all. -/
def noSeriesEntry : MetricValueEntry :=
  ⟨[], "m2".toList, "count".toList⟩

/-- Counterexample for C9: the guards pass (they inspect only
`Value[0]`), but the second value entry has no series, so the loop's
`value.Timeseries[0]` indexes out of bounds — a panic. -/
theorem c9_counterexample_second_entry_panics :
    (extractMetrics ["Total"] 200 ⟨[plainEntry, noSeriesEntry]⟩).2 = true := by
  decide

theorem extractEntrySamples_isSome_of_wf (aggregations : List String)
    (v : MetricValueEntry) (ts : MetricTimeseries) (tss : List MetricTimeseries)
    (hts : v.Timeseries = ts :: tss) (hd : ts.Data ≠ []) :
    (extractEntrySamples aggregations v).isSome = true := by
  rw [extractEntrySamples, hts]
  cases hl : ts.Data.getLast? with
  | none => exact absurd (List.getLast?_eq_none_iff.mp hl) hd
  | some dp => simp [hl]

theorem runValueEntries_no_panic (aggregations : List String)
    (vs : List MetricValueEntry)
    (h : ∀ v ∈ vs, ∃ ts tss, v.Timeseries = ts :: tss ∧ ts.Data ≠ []) :
    (runValueEntries aggregations vs).2 = false := by
  induction vs with
  | nil => rfl
  | cons v rest ih =>
    obtain ⟨ts, tss, hts, hd⟩ := h v (List.mem_cons_self _ _)
    rw [runValueEntries]
    cases he : extractEntrySamples aggregations v with
    | none =>
      have := extractEntrySamples_isSome_of_wf aggregations v ts tss hts hd
      rw [he] at this
      exact absurd this (by simp)
    | some samples =>
      simpa using ih (fun x hx => h x (List.mem_cons_of_mem _ hx))

/-- Claim C9 (amended): the guards in `extractMetrics` inspect only the
first value entry and do NOT make the indexing of every subsequent entry
safe (see the counterexample); what does make every `Timeseries[0]` /
`Data[len-1]` index in bounds is the stronger condition that EVERY value
entry has a nonempty series list whose first series has at least one data
point — under it no collection panics, for any sub-status and aggregation
list. -/
theorem c9_no_panic_of_all_entries_wf (aggregations : List String)
    (httpStatusCode : Nat) (metricValueData : AzureMetricValueResponse)
    (h : ∀ v ∈ metricValueData.Value,
        ∃ ts tss, v.Timeseries = ts :: tss ∧ ts.Data ≠ []) :
    (extractMetrics aggregations httpStatusCode metricValueData).2 = false := by
  rw [extractMetrics]
  split_ifs with hst
  · rfl
  · cases hv : metricValueData.Value with
    | nil => rfl
    | cons v0 rest =>
      dsimp only
      cases hts : v0.Timeseries with
      | nil => rfl
      | cons ts0 tss0 =>
        dsimp only
        split_ifs with hdata hpanic
        · rfl
        · have hrun : (runValueEntries aggregations (v0 :: rest)).2 = false :=
            runValueEntries_no_panic aggregations (v0 :: rest) (hv ▸ h)
          rw [hrun] at hpanic
          exact Bool.noConfusion hpanic
        · rfl

/-- Witness for C9 (amended): a payload whose every entry is well-formed
collects without a panic. -/
theorem c9_no_panic_of_all_entries_wf_witness :
    (extractMetrics ["Total"] 200 ⟨[plainEntry]⟩).2 = false := by
  refine c9_no_panic_of_all_entries_wf ["Total"] 200 ⟨[plainEntry]⟩ ?_
  intro v hv
  rw [List.mem_singleton.mp hv]
  exact ⟨⟨[⟨"t1".toList, 1, 1, 1, 1⟩]⟩, [], rfl, by decide⟩

theorem extractEntrySamples_gauge_from_last (aggregations : List String)
    (v : MetricValueEntry) (s : List Sample) (name : List Char) (q : ℚ)
    (he : extractEntrySamples aggregations v = some s)
    (hm : Sample.gauge name q ∈ s) :
    ∃ ts tss, v.Timeseries = ts :: tss ∧
      ∃ dp, ts.Data.getLast? = some dp ∧
        (q = dp.total ∨ q = dp.average ∨ q = dp.minimum ∨ q = dp.maximum) := by
  rcases hts : v.Timeseries with _ | ⟨ts, tss⟩
  · rw [extractEntrySamples, hts] at he
    exact absurd he (by simp)
  · simp only [extractEntrySamples, hts] at he
    cases hl : ts.Data.getLast? with
    | none =>
      rw [hl] at he
      exact absurd he (by simp)
    | some dp =>
      rw [hl] at he
      refine ⟨ts, tss, rfl, dp, hl, ?_⟩
      obtain rfl := (Option.some.inj he).symm
      simp only [List.mem_append] at hm
      rcases hm with ((hm | hm) | hm) | hm
      · split at hm
        · rw [List.mem_singleton] at hm
          injection hm with _ h2
          exact Or.inl h2
        · exact absurd hm (List.not_mem_nil _)
      · split at hm
        · rw [List.mem_singleton] at hm
          injection hm with _ h2
          exact Or.inr (Or.inl h2)
        · exact absurd hm (List.not_mem_nil _)
      · split at hm
        · rw [List.mem_singleton] at hm
          injection hm with _ h2
          exact Or.inr (Or.inr (Or.inl h2))
        · exact absurd hm (List.not_mem_nil _)
      · split at hm
        · rw [List.mem_singleton] at hm
          injection hm with _ h2
          exact Or.inr (Or.inr (Or.inr h2))
        · exact absurd hm (List.not_mem_nil _)

theorem runValueEntries_gauge (aggregations : List String) (vs : List MetricValueEntry)
    (name : List Char) (q : ℚ)
    (hm : Sample.gauge name q ∈ (runValueEntries aggregations vs).1) :
    ∃ v ∈ vs, ∃ s, extractEntrySamples aggregations v = some s ∧
      Sample.gauge name q ∈ s := by
  induction vs with
  | nil => exact absurd hm (List.not_mem_nil _)
  | cons v rest ih =>
    rw [runValueEntries] at hm
    cases he : extractEntrySamples aggregations v with
    | none =>
      rw [he] at hm
      exact absurd hm (List.not_mem_nil _)
    | some s =>
      rw [he] at hm
      rcases List.mem_append.mp hm with hm | hm
      · exact ⟨v, List.mem_cons_self _ _, s, he, hm⟩
      · obtain ⟨w, hw, s2, he2, hm2⟩ := ih hm
        exact ⟨w, List.mem_cons_of_mem _ hw, s2, he2, hm2⟩

theorem extractMetrics_gauge_sub (aggregations : List String) (httpStatusCode : Nat)
    (metricValueData : AzureMetricValueResponse) (name : List Char) (q : ℚ) :
    Sample.gauge name q ∈ (extractMetrics aggregations httpStatusCode metricValueData).1 →
    Sample.gauge name q ∈ (runValueEntries aggregations metricValueData.Value).1 := by
  rw [extractMetrics]
  split_ifs with hst
  · intro hm
    exact absurd hm (List.not_mem_nil _)
  · cases hval : metricValueData.Value with
    | nil =>
      intro hm
      exact absurd hm (List.not_mem_nil _)
    | cons v0 rest =>
      dsimp only
      cases hts : v0.Timeseries with
      | nil =>
        dsimp only
        intro hm
        exact absurd hm (List.not_mem_nil _)
      | cons ts0 tss0 =>
        dsimp only
        split_ifs with hdata hrun
        · intro hm
          exact absurd hm (List.not_mem_nil _)
        · intro hm
          exact hm
        · intro hm
          rcases List.mem_append.mp hm with hm | hm
          · exact hm
          · rw [List.mem_singleton] at hm
            exact absurd hm (by simp)

theorem extractEntrySamples_total_mem (aggregations : List String) (v : MetricValueEntry)
    (ts : MetricTimeseries) (tss : List MetricTimeseries) (dp : MetricDataPoint)
    (hts : v.Timeseries = ts :: tss) (hdp : ts.Data.getLast? = some dp)
    (hagg : hasAggregation aggregations "Total" = true) :
    ∃ s, extractEntrySamples aggregations v = some s ∧
      Sample.gauge (sanitizeMetricName v.nameValue v.unit ++ "_total".toList) dp.total ∈ s := by
  rcases hsome : extractEntrySamples aggregations v with _ | s
  · have hs := extractEntrySamples_isSome_of_wf aggregations v ts tss hts
      (by intro hnil; rw [hnil] at hdp; exact absurd hdp (by simp))
    rw [hsome] at hs
    exact absurd hs (by simp)
  · refine ⟨s, rfl, ?_⟩
    simp only [extractEntrySamples, hts, hdp, Option.some.injEq] at hsome
    subst hsome
    simp [hagg]

theorem runValueEntries_mem_first (aggregations : List String) (v : MetricValueEntry)
    (vs : List MetricValueEntry) (s : List Sample) (x : Sample)
    (he : extractEntrySamples aggregations v = some s) (hx : x ∈ s) :
    x ∈ (runValueEntries aggregations (v :: vs)).1 := by
  rw [runValueEntries, he]
  exact List.mem_append_left _ hx

/-- Claim C8: every gauge sample the translator emits takes its value from
one of the four aggregates of the LAST data point of the FIRST series of
some value entry — never from an earlier data point and never an aggregate
computed over several points; and whenever the guards pass and `Total` is a
requested aggregation, the gauge built from the last data point's `total`
of the first entry's first series is actually emitted. -/
theorem c8_last_point_of_first_series :
    (∀ (aggregations : List String) (httpStatusCode : Nat)
        (metricValueData : AzureMetricValueResponse) (name : List Char) (q : ℚ),
        Sample.gauge name q ∈ (extractMetrics aggregations httpStatusCode metricValueData).1 →
        ∃ v ∈ metricValueData.Value, ∃ ts tss, v.Timeseries = ts :: tss ∧
          ∃ dp, ts.Data.getLast? = some dp ∧
            (q = dp.total ∨ q = dp.average ∨ q = dp.minimum ∨ q = dp.maximum)) ∧
    (∀ (aggregations : List String) (metricValueData : AzureMetricValueResponse)
        (v0 : MetricValueEntry) (rest : List MetricValueEntry)
        (ts0 : MetricTimeseries) (tss0 : List MetricTimeseries) (dp : MetricDataPoint),
        metricValueData.Value = v0 :: rest → v0.Timeseries = ts0 :: tss0 →
        ts0.Data.getLast? = some dp → hasAggregation aggregations "Total" = true →
        Sample.gauge (sanitizeMetricName v0.nameValue v0.unit ++ "_total".toList) dp.total
          ∈ (extractMetrics aggregations 200 metricValueData).1) := by
  constructor
  · intro aggregations httpStatusCode metricValueData name q hm
    obtain ⟨v, hv, s, he, hms⟩ := runValueEntries_gauge aggregations metricValueData.Value
      name q (extractMetrics_gauge_sub aggregations httpStatusCode metricValueData name q hm)
    obtain ⟨ts, tss, hts, dp, hdp, hq⟩ :=
      extractEntrySamples_gauge_from_last aggregations v s name q he hms
    exact ⟨v, hv, ts, tss, hts, dp, hdp, hq⟩
  · intro aggregations metricValueData v0 rest ts0 tss0 dp hval hts hdp hagg
    have hdne : ts0.Data ≠ [] := by
      intro hnil
      rw [hnil] at hdp
      exact absurd hdp (by simp)
    have hie : ts0.Data.isEmpty = false := by
      cases hd : ts0.Data with
      | nil => exact absurd hd hdne
      | cons a l => rfl
    obtain ⟨s, he, hmem⟩ :=
      extractEntrySamples_total_mem aggregations v0 ts0 tss0 dp hts hdp hagg
    have hrunmem := runValueEntries_mem_first aggregations v0 rest s _ he hmem
    rw [extractMetrics, if_neg (by simp), hval]
    dsimp only
    rw [hts]
    dsimp only
    rw [hie]
    simp only [Bool.false_eq_true, if_false]
    split_ifs with hrun
    · exact hrunmem
    · exact List.mem_append_left _ hrunmem

/-- A value entry whose first (only) series carries the data points
`[{total 1}, {total 2}, {total 3}]` of the spec's example. -/
def threePointEntry : MetricValueEntry :=
  ⟨[⟨[⟨"t1".toList, 1, 0, 0, 0⟩, ⟨"t2".toList, 2, 0, 0, 0⟩, ⟨"t3".toList, 3, 0, 0, 0⟩]⟩],
    "m".toList, "count".toList⟩

/-- Witness for C8: on data points `[{total:1},{total:2},{total:3}]` the
emitted `Total` gauge carries the value 3 — the last point. -/
theorem c8_last_point_of_first_series_witness :
    Sample.gauge (sanitizeMetricName "m".toList "count".toList ++ "_total".toList) 3
      ∈ (extractMetrics ["Total"] 200 ⟨[threePointEntry]⟩).1 :=
  c8_last_point_of_first_series.2 ["Total"] ⟨[threePointEntry]⟩ threePointEntry []
    ⟨[⟨"t1".toList, 1, 0, 0, 0⟩, ⟨"t2".toList, 2, 0, 0, 0⟩, ⟨"t3".toList, 3, 0, 0, 0⟩]⟩ []
    ⟨"t3".toList, 3, 0, 0, 0⟩ rfl rfl (by decide) (by decide)

/-! ## Collection cycle error handling (main.go, Collect lines 144-242) -/

/-- What `Collect` pushes on the Prometheus channel, as far as C1 needs to
distinguish it: the synthetic `azure_error` invalid metric
(`prometheus.NewInvalidMetric(azureErrorDesc, err)`) versus an ordinary
sample. -/
inductive Emission where
  | invalidMetric
  | sample (s : Sample)
deriving DecidableEq

/-- How one call of `Collect` ends: a normal return with the listed channel
emissions, or `log.Fatal` — which terminates the whole process
(`os.Exit(1)`) before anything is emitted for the cycle. -/
inductive CycleOutcome where
  | returned (emissions : List Emission)
  | fatalExit
deriving DecidableEq

/-- The opening of `Collector.Collect` (main.go lines 145-155), which fully
determines the cycle-level handling of token-refresh and API-version
failures:

    if err := ac.refreshAccessToken(); err != nil {
        log.Println(err)
        ch <- prometheus.NewInvalidMetric(azureErrorDesc, err)
        return
    }
    apiVersions, err := populateAPIVersions()
    if err != nil {
        log.Fatal(err)
    }

The two externally-performed operations are passed as their outcomes
(`populateAPIVersions` is the provider API-version listing plus its JSON
decoding; its body is not among the provided sources, only this caller).
The remainder of the cycle — target/group/tag expansion and
`batchCollectResources`, which run only after version resolution succeeds —
is abstracted as the emissions it produces from the resolved version map. -/
def collectCycle {V : Type*} (refreshAccessToken : Except (List Char) Unit)
    (populateAPIVersions : Except (List Char) V)
    (restOfCycle : V → List Emission) : CycleOutcome :=
  match refreshAccessToken with
  | .error _ => .returned [Emission.invalidMetric]
  | .ok _ =>
    match populateAPIVersions with
    | .error _ => .fatalExit
    | .ok apiVersions => .returned (restOfCycle apiVersions)

/-- Claim C1 fails on the code: when the API-version listing (or its JSON
decoding) fails during a collection cycle, `Collect` reaches
`log.Fatal(err)` and the PROCESS TERMINATES without emitting anything — the
failure is not surfaced as a synthetic invalid metric, and termination is
not limited to startup failures. The contrast with the token-refresh path
(third conjunct), which emits exactly one invalid metric and returns, is
what the claim (and spec §7) describe for every mid-cycle failure. -/
theorem c1_version_failure_terminates_process {V : Type*} (e : List Char)
    (restOfCycle : V → List Emission) :
    collectCycle (Except.ok ()) (Except.error e) restOfCycle = CycleOutcome.fatalExit ∧
    (∀ emissions, CycleOutcome.fatalExit ≠ CycleOutcome.returned emissions) ∧
    collectCycle (Except.error e) (Except.error e) restOfCycle
      = CycleOutcome.returned [Emission.invalidMetric] := by
  refine ⟨rfl, ?_, rfl⟩
  intro emissions h
  exact CycleOutcome.noConfusion h

end AzureExporter
